import Mathlib

/-!
Verification of the Calibration Selection & Ranking Engine of the
AI_Prediction_Oracle repository.

The Python sources embedded here are:
  * `app/services/gemini_analyzer.py` —
      `GeminiAnalyzer._get_market_probability`,
      `GeminiAnalyzer._construct_prompt` (its market-admission loop),
      `GeminiAnalyzer._should_normalize`,
      `GeminiAnalyzer.transform_to_raw_analysis`;
  * `app/api/endpoints/cards.py` —
      `_normalize_prob`, `get_volume_score`, `get_weighted_alpha_score`,
      the dual-rank zipper merge and the pagination of `get_card_list`.

Python floats are modelled as exact rationals (`ℚ`), Python `None`-able
values as `Option`, raising code as `Except Unit`, and `dict`s as
insertion-ordered association lists.  `json.loads` is a collaborator and is
passed in as an explicit parameter, universally quantified in the theorems.
-/

namespace Oracle

/-- A Python value as it can occur in the probability-bearing fields of a raw
market record: `None`, a bool, a number (exact rational), a string, or a
list. -/
inductive PyVal where
  | none : PyVal
  | bool : Bool → PyVal
  | num : ℚ → PyVal
  | str : String → PyVal
  | list : List PyVal → PyVal

/-- Truthiness of a `PyVal`, as Python evaluates it in an `if`. -/
def pyTruthy : PyVal → Bool
  | .none => false
  | .bool b => b
  | .num q => q != 0
  | .str s => s != ""
  | .list l => !l.isEmpty

/-- Accumulate a run of decimal digit characters into a natural number. -/
def digitsToNat (cs : List Char) : Nat :=
  cs.foldl (fun n c => n * 10 + (c.toNat - 48)) 0

/-- Parse an unsigned decimal literal (`digits`, `digits.digits`, `.digits`,
`digits.`).  Returns `none` on anything else. -/
def parseUnsignedDecimal : List Char → Option ℚ
  | cs =>
    let intPart := cs.takeWhile Char.isDigit
    let rest := cs.dropWhile Char.isDigit
    match rest with
    | [] => if intPart.isEmpty then none else some ((digitsToNat intPart : ℤ) : ℚ)
    | '.' :: frac =>
      if frac.all Char.isDigit && !(intPart.isEmpty && frac.isEmpty) then
        some (((digitsToNat intPart : ℤ) : ℚ)
          + ((digitsToNat frac : ℤ) : ℚ) / ((10 : ℚ) ^ frac.length))
      else none
    | _ => none

/-- Strip leading and trailing whitespace from a character list. -/
def pyStrip (cs : List Char) : List Char :=
  ((cs.dropWhile Char.isWhitespace).reverse.dropWhile Char.isWhitespace).reverse

/-- Model of Python `float(s)` on a string: strip surrounding whitespace,
accept an optional sign followed by a plain decimal literal.  (Exponent,
`inf` and `nan` forms are not modelled; no claim depends on them.)  `none`
models `float` raising `ValueError`. -/
def pyFloatOfString (s : String) : Option ℚ :=
  match pyStrip s.data with
  | '-' :: cs => (parseUnsignedDecimal cs).map (fun q => -q)
  | '+' :: cs => parseUnsignedDecimal cs
  | cs => parseUnsignedDecimal cs

/-- Model of Python `float(v)` on a value: numbers pass through, bools become
0/1, strings are parsed, everything else raises (`Except.error`). -/
def pyFloat : PyVal → Except Unit ℚ
  | .num q => .ok q
  | .bool b => .ok (if b then 1 else 0)
  | .str s =>
    match pyFloatOfString s with
    | some q => .ok q
    | Option.none => .error ()
  | _ => .error ()

/-- Model of Python `v[0]`: first element of a list, first character of a
string; raises on an empty list/string and on non-indexable values. -/
def pyIndex0 : PyVal → Except Unit PyVal
  | .list (x :: _) => .ok x
  | .list [] => .error ()
  | .str s =>
    match s.data with
    | c :: _ => .ok (.str (String.mk [c]))
    | [] => .error ()
  | _ => .error ()

/-- A raw market record restricted to the fields `_get_market_probability`,
`_construct_prompt` and `transform_to_raw_analysis` read.  A field holds
`Option.none` when the corresponding dict key is absent. -/
structure RawMarket where
  calculated_odds : Option PyVal
  outcomePrices : Option PyVal
  probability : Option PyVal
  id : Option String
  polymarket_id : Option String

/-- The market identifier used by `transform_to_raw_analysis`:
`m.get("id", m.get("polymarket_id", ""))`. -/
def marketKey (m : RawMarket) : String :=
  m.id.getD (m.polymarket_id.getD "")

/-- Body of the `try` block of tier 2 of `_get_market_probability`: if the
outcome-price value is a string, decode it with `json.loads` (the
collaborator parameter `jl`), then take element 0 and convert it to float.
Any raise inside is caught by the caller. -/
def tier2 (jl : String → Except Unit PyVal) (op : PyVal) : Except Unit ℚ :=
  match (match op with | .str s => jl s | _ => .ok op) with
  | .error e => .error e
  | .ok v =>
    match pyIndex0 v with
    | .error e => .error e
    | .ok x => pyFloat x

/-- `GeminiAnalyzer._get_market_probability` (gemini_analyzer.py:64-78).
Tier 1: `float(market["calculated_odds"])` when the key is present (the
conversion is NOT wrapped in try/except).  Tier 2: the first outcome price,
with every failure caught and falling through.  Tier 3:
`float(market.get("probability", 0.0))` (also unprotected). -/
def getMarketProbability (jl : String → Except Unit PyVal) (m : RawMarket) :
    Except Unit ℚ :=
  match m.calculated_odds with
  | some v => pyFloat v
  | Option.none =>
    let op := m.outcomePrices.getD (.list [])
    if pyTruthy op then
      match tier2 jl op with
      | .ok q => .ok q
      | .error _ => pyFloat (m.probability.getD (.num 0))
    else pyFloat (m.probability.getD (.num 0))

/-- The 5% admission threshold `MIN_PROBABILITY_THRESHOLD` of
`_construct_prompt` (gemini_analyzer.py:87). -/
def MIN_PROBABILITY_THRESHOLD : ℚ := 5 / 100

/-- The market-admission loop of `GeminiAnalyzer._construct_prompt`
(gemini_analyzer.py:86-111): every market whose extracted probability is
below `MIN_PROBABILITY_THRESHOLD` is skipped (`continue`); every other
market is rendered into the prompt, in input order.  An exception raised by
`_get_market_probability` propagates (there is no try/except around the
loop). -/
def promptMarkets (jl : String → Except Unit PyVal) :
    List RawMarket → Except Unit (List RawMarket)
  | [] => .ok []
  | m :: rest =>
    match getMarketProbability jl m with
    | .error e => .error e
    | .ok p =>
      match promptMarkets jl rest with
      | .error e => .error e
      | .ok tail =>
        .ok (if p < MIN_PROBABILITY_THRESHOLD then tail else m :: tail)

/-- Does `needle` occur as a contiguous run inside `hay` (Python
`needle in hay` on strings), on character lists. -/
def listHasInfix (needle : List Char) : List Char → Bool
  | [] => needle.isEmpty
  | c :: rest => needle.isPrefixOf (c :: rest) || listHasInfix needle rest

/-- Python `needle in hay` for strings. -/
def strContains (hay needle : String) : Bool :=
  listHasInfix needle.data hay.data

/-- Python `s.lower()` (character-wise lowercasing). -/
def lowerStr (s : String) : String :=
  String.mk (s.data.map Char.toLower)

/-- The cumulative-framing markers of `_should_normalize`
(gemini_analyzer.py:325-328). -/
def cumulativeKeywords : List String :=
  [" by ", "hit", "reach", "above", "below", "over", "under",
   "at least", "more than", "less than", "exceed", "surpass"]

/-- The competitive-framing markers of `_should_normalize`
(gemini_analyzer.py:335-338). -/
def competitiveKeywords : List String :=
  ["nominee", "winner", "which", "who will win", "who will be",
   "next president", "next prime minister", "champion"]

/-- `GeminiAnalyzer._should_normalize` (gemini_analyzer.py:306-346).  The
title may be `None` (`event_title or ""`); the keyword loops return on the
first match. -/
def shouldNormalize (event_title : Option String) (market_count : ℕ) : Bool :=
  let title_lower := lowerStr (event_title.getD "")
  if market_count ≤ 1 then false
  else if cumulativeKeywords.any (fun kw => strContains title_lower kw) then false
  else if competitiveKeywords.any (fun kw => strContains title_lower kw) then true
  else true

/-- One value of the `"markets"` object of a parsed Gemini response, as read
by `transform_to_raw_analysis`: `m.get("ai_calibrated_odds", 0)`,
`m.get("confidence_score", 0)` and the four `analysis` rationale fields. -/
structure AIMarket where
  ai_calibrated_odds : Option ℚ
  confidence_score : Option ℚ
  structural_anchor : Option String
  noise : Option String
  barrier : Option String
  blindspot : Option String
deriving DecidableEq, Repr

/-- One value of the `raw_analysis` dict produced by
`transform_to_raw_analysis` (`_analyzed`/`_normalized` are spelled
`analyzed`/`normalized`). -/
structure RAEntry where
  ai_calibrated_odds_pct : ℚ
  ai_confidence : ℚ
  structural_anchor : Option String
  noise : Option String
  barrier : Option String
  blindspot : Option String
  analyzed : Bool
  normalized : Bool
deriving DecidableEq, Repr

/-- Python `d[k] = v` on an insertion-ordered dict rendered as an
association list: an existing key keeps its position and gets the new value,
a fresh key is appended. -/
def dictInsert (k : String) (v : ℚ) :
    List (String × ℚ) → List (String × ℚ)
  | [] => [(k, v)]
  | (k2, v2) :: rest =>
    if k2 = k then (k, v) :: rest else (k2, v2) :: dictInsert k v rest

/-- The `all_market_probs` loop of `transform_to_raw_analysis`
(gemini_analyzer.py:373-376): left-to-right dict insertion of
`marketKey m ↦ _get_market_probability(m)`; an extraction exception
propagates at the first offending market. -/
def allMarketProbsAux (jl : String → Except Unit PyVal)
    (acc : List (String × ℚ)) :
    List RawMarket → Except Unit (List (String × ℚ))
  | [] => .ok acc
  | m :: rest =>
    match getMarketProbability jl m with
    | .error e => .error e
    | .ok p => allMarketProbsAux jl (dictInsert (marketKey m) p acc) rest

/-- `all_market_probs` built from the original markets. -/
def allMarketProbs (jl : String → Except Unit PyVal)
    (oms : List RawMarket) : Except Unit (List (String × ℚ)) :=
  allMarketProbsAux jl [] oms

/-- Round-half-to-even on an exact rational, modelling Python `round` on the
exact value. -/
def roundHalfEven (q : ℚ) : ℤ :=
  let n := ⌊q⌋
  let f := q - (n : ℚ)
  if f < 1 / 2 then n
  else if 1 / 2 < f then n + 1
  else if 2 ∣ n then n else n + 1

/-- Python `round(x, 2)` on the exact value. -/
def round2 (q : ℚ) : ℚ :=
  ((roundHalfEven (q * 100) : ℤ) : ℚ) / 100

/-- `total_ai_prob`: sum of `m.get("ai_calibrated_odds", 0)` over the values
of the AI markets dict (gemini_analyzer.py:379). -/
def totalAiProb (ai : List (String × AIMarket)) : ℚ :=
  (ai.map (fun p => p.2.ai_calibrated_odds.getD 0)).sum

/-- The `(market_id, prob)` items of `all_market_probs` whose id is not in
`analyzed_ids` (gemini_analyzer.py:385-389, reused at 427-428). -/
def unanalyzedProbs (ai : List (String × AIMarket))
    (amp : List (String × ℚ)) : List (String × ℚ) :=
  amp.filter (fun p => !(ai.map Prod.fst).contains p.1)

/-- The normalization denominator (gemini_analyzer.py:392-400): when
normalizing, `S` with the `S ≤ 0 → 1` degenerate fallback; otherwise `1`
(the not-normalizing branches multiply by 100 directly, which equals
dividing by this neutral base). -/
def normalizationBase (should : Bool) (S : ℚ) : ℚ :=
  if should then (if S ≤ 0 then 1 else S) else 1

/-- The `final_pct` computed for a value `v` (calibrated or baseline):
`(v / normalization_base) * 100` when normalizing, else `v * 100`
(gemini_analyzer.py:407-411 and 429-432). -/
def finalPct (should : Bool) (base v : ℚ) : ℚ :=
  if should then v / base * 100 else v * 100

/-- The `raw_analysis` entry stored for an analyzed market
(gemini_analyzer.py:415-424). -/
def mkAnalyzedEntry (should : Bool) (base : ℚ) (md : AIMarket) : RAEntry :=
  { ai_calibrated_odds_pct :=
      round2 (finalPct should base (md.ai_calibrated_odds.getD 0))
    ai_confidence := md.confidence_score.getD 0
    structural_anchor := md.structural_anchor
    noise := md.noise
    barrier := md.barrier
    blindspot := md.blindspot
    analyzed := true
    normalized := should }

/-- The `raw_analysis` entry stored for an unanalyzed market
(gemini_analyzer.py:434-443). -/
def mkUnanalyzedEntry (should : Bool) (base p : ℚ) : RAEntry :=
  { ai_calibrated_odds_pct := round2 (finalPct should base p)
    ai_confidence := 0
    structural_anchor := Option.none
    noise := Option.none
    barrier := Option.none
    blindspot := Option.none
    analyzed := false
    normalized := should }

/-- `GeminiAnalyzer.transform_to_raw_analysis` (gemini_analyzer.py:348-445).
`gemini_result = Option.none` models a falsy `gemini_result` (early
`return {}`); `some ai` carries `gemini_result.get("markets", {})` as an
insertion-ordered association list.  A `None` `original_markets` is the
empty list (`original_markets or []`).  The result dict lists the analyzed
entries in AI-dict order followed by the unanalyzed entries in
`all_market_probs` order; an extraction exception propagates. -/
def transform_to_raw_analysis (jl : String → Except Unit PyVal)
    (gemini_result : Option (List (String × AIMarket)))
    (original_markets : List RawMarket) (event_title : Option String) :
    Except Unit (List (String × RAEntry)) :=
  match gemini_result with
  | Option.none => .ok []
  | some ai =>
    match allMarketProbs jl original_markets with
    | .error e => .error e
    | .ok amp =>
      let should := shouldNormalize event_title original_markets.length
      let S := totalAiProb ai + ((unanalyzedProbs ai amp).map Prod.snd).sum
      let base := normalizationBase should S
      .ok ((ai.map fun p => (p.1, mkAnalyzedEntry should base p.2))
        ++ ((unanalyzedProbs ai amp).map fun p =>
              (p.1, mkUnanalyzedEntry should base p.2)))

/-- The list of `final_pct` values computed by `transform_to_raw_analysis`
before the 2-decimal rounding applied on storage, in output-entry order
(analyzed markets first, then unanalyzed ones). -/
def transformFinalPcts (jl : String → Except Unit PyVal)
    (ai : List (String × AIMarket))
    (original_markets : List RawMarket) (event_title : Option String) :
    Except Unit (List ℚ) :=
  match allMarketProbs jl original_markets with
  | .error e => .error e
  | .ok amp =>
    let should := shouldNormalize event_title original_markets.length
    let S := totalAiProb ai + ((unanalyzedProbs ai amp).map Prod.snd).sum
    let base := normalizationBase should S
    .ok ((ai.map fun p =>
        finalPct should base (p.2.ai_calibrated_odds.getD 0))
      ++ ((unanalyzedProbs ai amp).map fun p => finalPct should base p.2))

/-- One market dict of a built card (`_build_card_data` /
`_extract_markets_from_raw_data`, cards.py:27-98), restricted to the fields
the ranking reads: `"probability"`, `"ai_adjusted_probability"`,
`"adjustedProbability"`.  `extra` stands for every other field (question,
outcomes, icon, …), which the ranking never reads. -/
structure MarketDict where
  probability : Option ℚ
  ai_adjusted_probability : Option ℚ
  adjustedProbability : Option ℚ
  extra : String
deriving DecidableEq, Repr

/-- One event card as it flows through `get_card_list`: the `EventCard` row
flags and volume column used by the SQL phase, plus the built `card_dict`
fields the in-memory ranking reads (`"id"`, `"volume"`, `"markets"`).
`extra` stands for every other `card_dict` field (title, description, tags,
dates, AI summary, …), which the ranking never reads. -/
structure Card where
  id : String
  is_active : Bool
  is_closed : Bool
  is_archived : Bool
  has_sports_tag : Bool
  dbVolume : ℚ
  volume : Option ℚ
  markets : List MarketDict
  extra : String
deriving DecidableEq, Repr

/-- `_normalize_prob` (cards.py:331-338): `None → 0.0`, values above 1 are
divided by 100, then clamped to `[0, 1]`. -/
def normalize_prob (val : Option ℚ) : ℚ :=
  match val with
  | Option.none => 0
  | some v0 =>
    let v := if 1 < v0 then v0 / 100 else v0
    max 0 (min 1 v)

/-- `get_volume_score` (cards.py:338-339): `float(card.get("volume") or 0)`
(a missing/`None`/zero volume scores 0). -/
def get_volume_score (c : Card) : ℚ :=
  match c.volume with
  | Option.none => 0
  | some v => if v == 0 then 0 else v

/-- Python `m.get("ai_adjusted_probability") or m.get("adjustedProbability")`
(cards.py:352): the first value wins unless it is falsy (`None` or `0.0`). -/
def adjProbOf (m : MarketDict) : Option ℚ :=
  match m.ai_adjusted_probability with
  | some v => if v == 0 then m.adjustedProbability else some v
  | Option.none => m.adjustedProbability

/-- The per-market `diff = abs(prob - curr_ai)` of `get_weighted_alpha_score`
(cards.py:349-358): the baseline is the normalized `"probability"`, the AI
side falls back to the baseline when no adjusted probability is present. -/
def marketDiff (m : MarketDict) : ℚ :=
  let prob := normalize_prob m.probability
  let curr_ai :=
    match adjProbOf m with
    | Option.none => prob
    | some a => normalize_prob (some a)
  |prob - curr_ai|

/-- Stable insertion of `x` into a list sorted descending by `key`: `x` goes
in front of the first strictly-smaller element, hence before later-arriving
equal keys. -/
def insertDesc (key : α → ℚ) (x : α) : List α → List α
  | [] => [x]
  | y :: ys => if key x < key y then y :: insertDesc key x ys else x :: y :: ys

/-- Stable descending sort by `key`: the behaviour of Python
`sorted(l, key=key, reverse=True)` (Timsort is stable; `reverse=True` keeps
equal-key elements in input order). -/
def sortDescBy (key : α → ℚ) : List α → List α
  | [] => []
  | x :: xs => insertDesc key x (sortDescBy key xs)

/-- `get_weighted_alpha_score` (cards.py:343-367): 0 for zero/missing
volume, else volume times the sum of the two largest market diffs
(`diffs.sort(reverse=True); diffs[:2]`). -/
def get_weighted_alpha_score (c : Card) : ℚ :=
  let vol := match c.volume with
    | Option.none => 0
    | some v => if v == 0 then 0 else v
  if vol == 0 then 0
  else
    let diffs := c.markets.map marketDiff
    vol * ((sortDescBy (fun q => q) diffs).take 2).sum

/-- The inner `while ptr < len(list)` scan of the zipper merge
(cards.py:383-391): advance past already-used ids and hand back the first
card with a fresh id together with the remaining suffix; `Option.none` means
the list was exhausted without finding one. -/
def findUnused (used : List String) : List Card → Option (Card × List Card)
  | [] => Option.none
  | c :: rest =>
    if c.id ∈ used then findUnused used rest else some (c, rest)

/-- The `while len(final_list) < len(card_data_list)` zipper loop of
`get_card_list` (cards.py:377-411), fuel-indexed because the Python loop
spins forever when input ids repeat.  State: the unscanned suffixes of
`list_volume` and `list_alpha`, the `used_ids` set (a list of ids), the
accumulator (output built in reverse), the `turn_volume` flag and the
target length.  A successful draw appends and flips the turn; an exhausted
side hands the turn to the other side without drawing (`continue`). -/
def zipLoop : ℕ → List Card → List Card → List String → List Card → Bool →
    ℕ → List Card
  | 0, _, _, _, acc, _, _ => acc.reverse
  | Nat.succ fuel, A, B, used, acc, turn, target =>
    if acc.length < target then
      if turn then
        match findUnused used A with
        | some (c, A2) =>
          zipLoop fuel A2 B (c.id :: used) (c :: acc) false target
        | Option.none => zipLoop fuel [] B used acc false target
      else
        match findUnused used B with
        | some (c, B2) =>
          zipLoop fuel A B2 (c.id :: used) (c :: acc) true target
        | Option.none => zipLoop fuel A [] used acc true target
    else acc.reverse

/-- The dual-rank merge of `get_card_list` (cards.py:369-411): sort the card
dicts descending by volume score and by weighted alpha score (both stable),
then zipper-merge starting from the volume side.  The fuel
`card_data_list.length + 1` is exactly the number of loop iterations the
Python loop performs when it terminates. -/
def mergeCards (card_data_list : List Card) : List Card :=
  let list_volume := sortDescBy get_volume_score card_data_list
  let list_alpha := sortDescBy get_weighted_alpha_score card_data_list
  zipLoop (card_data_list.length + 1) list_volume list_alpha [] [] true
    card_data_list.length

/-- `CANDIDATE_POOL_SIZE` (cards.py:263). -/
def CANDIDATE_POOL_SIZE : ℕ := 100

/-- The filters of `base_query` (cards.py:205-221): active, not closed, not
archived, and not carrying a sports tag. -/
def eligibleCard (c : Card) : Bool :=
  c.is_active && !c.is_closed && !c.is_archived && !c.has_sports_tag

/-- The candidate pool (cards.py:265): the `base_query` rows ordered by
volume descending, limited to `CANDIDATE_POOL_SIZE`. -/
def candidatePool (db : List Card) : List Card :=
  (sortDescBy (fun c => c.dbVolume) (db.filter eligibleCard)).take
    CANDIDATE_POOL_SIZE

/-- The merged sequence the feed is paged from: the dual-rank merge of the
candidate pool. -/
def mergedFeed (db : List Card) : List Card :=
  mergeCards (candidatePool db)

/-- The payload shape of `CardListPayload` (total, page, pageSize, list). -/
structure CardListPayload where
  total : ℕ
  page : ℕ
  pageSize : ℕ
  list : List Card
deriving DecidableEq, Repr

/-- `get_card_list` (cards.py:177-438) on the untagged path (`tagId=None`),
with the database modelled as the list of `EventCard` rows.  `total` comes
from the count query (cards.py:239-253), which filters on `is_active` only;
the page is the slice `final_list[offset : offset + pageSize]` of the merged
sequence with `offset = (page - 1) * pageSize` (cards.py:413-415). -/
def get_card_list (db : List Card) (page pageSize : ℕ) : CardListPayload :=
  let total_count := (db.filter (fun c => c.is_active)).length
  let final_list := mergedFeed db
  let offset := (page - 1) * pageSize
  { total := total_count
    page := page
    pageSize := pageSize
    list := (final_list.drop offset).take pageSize }

/-- The probability value carried by a successful extraction (0 in the
error case, which the theorems using it exclude by hypothesis). -/
def okProb (jl : String → Except Unit PyVal) (m : RawMarket) : ℚ :=
  match getMarketProbability jl m with
  | .ok q => q
  | .error _ => 0

/-- The fields of a market dict that the ranking of `get_card_list` reads. -/
def mproj (m : MarketDict) : Option ℚ × Option ℚ × Option ℚ :=
  (m.probability, m.ai_adjusted_probability, m.adjustedProbability)

/-- The fields of a card that the dual-rank merge reads: the id, the volume
and the probability fields of the markets.  Two cards with the same
`rankProj` are indistinguishable to the merge. -/
def rankProj (c : Card) :
    String × Option ℚ × List (Option ℚ × Option ℚ × Option ℚ) :=
  (c.id, c.volume, c.markets.map mproj)


/-- A concrete card with a missing (`None`) volume, used to witness C8. -/
def noVolumeCard : Card :=
  { id := "w", is_active := true, is_closed := false, is_archived := false,
    has_sports_tag := false, dbVolume := 0, volume := Option.none,
    markets := [], extra := "" }

/-- A `json.loads` stand-in that always fails; none of the witness inputs
reach it. -/
def jlW : String → Except Unit PyVal := fun _ => .error ()

/-- The AI result of the spec's scenario: three markets calibrated to
0.5 / 0.3 / 0.3. -/
def aiW : List (String × AIMarket) :=
  [("a", ⟨some (1 / 2), Option.none, Option.none, Option.none, Option.none,
    Option.none⟩),
   ("b", ⟨some (3 / 10), Option.none, Option.none, Option.none, Option.none,
    Option.none⟩),
   ("c", ⟨some (3 / 10), Option.none, Option.none, Option.none, Option.none,
    Option.none⟩)]

/-- The original markets of the spec's scenario: baselines 0.7 / 0.2 / 0.1. -/
def omsW : List RawMarket :=
  [⟨Option.none, Option.none, some (.num (7 / 10)), some "a", Option.none⟩,
   ⟨Option.none, Option.none, some (.num (1 / 5)), some "b", Option.none⟩,
   ⟨Option.none, Option.none, some (.num (1 / 10)), some "c", Option.none⟩]

/-- The `all_market_probs` dict computed from `omsW`. -/
def ampW : List (String × ℚ) := [("a", 7 / 10), ("b", 1 / 5), ("c", 1 / 10)]

/-- A concrete card that is active but closed: the count query counts it,
the candidate pool excludes it. -/
def closedActiveCard : Card :=
  { id := "c0", is_active := true, is_closed := true, is_archived := false,
    has_sports_tag := false, dbVolume := 5, volume := some 5, markets := [],
    extra := "" }

/-- A plain eligible card with a given id and volume and no markets, used as
concrete witness data. -/
def mkPlainCard (i : String) (v : ℚ) : Card :=
  { id := i, is_active := true, is_closed := false, is_archived := false,
    has_sports_tag := false, dbVolume := v, volume := some v, markets := [],
    extra := "" }

/-- A card whose non-ranking payload differs from `payloadCardTwo` only. -/
def payloadCardOne : Card :=
  { id := "a", is_active := true, is_closed := false, is_archived := false,
    has_sports_tag := false, dbVolume := 1, volume := some 1, markets := [],
    extra := "payload-one" }

/-- A card whose non-ranking payload differs from `payloadCardOne` only. -/
def payloadCardTwo : Card :=
  { id := "a", is_active := true, is_closed := false, is_archived := false,
    has_sports_tag := false, dbVolume := 1, volume := some 1, markets := [],
    extra := "payload-two" }

/-- The invariant maintained by the zipper loop when the input ids are
pairwise distinct.  `LVids` is the full list of input ids; `A`/`B` are the
unscanned suffixes of the two rank lists; `used` is the used-id set; `acc`
the accumulator.  Every element passed over in either list had its id
recorded in `used`, so every not-yet-used input id still has a carrier in
BOTH suffixes. -/
structure ZipInv (LVids : List String) (A B : List Card)
    (used : List String) (acc : List Card) : Prop where
  husedeq : used = acc.map Card.id
  hnd : used.Nodup
  hsub : ∀ i ∈ used, i ∈ LVids
  hAids : ∀ c ∈ A, c.id ∈ LVids
  hBids : ∀ c ∈ B, c.id ∈ LVids
  hA : ∀ i ∈ LVids, i ∉ used → ∃ c ∈ A, c.id = i
  hB : ∀ i ∈ LVids, i ∉ used → ∃ c ∈ B, c.id = i

end Oracle

namespace Oracle

/-! ### Supporting lemmas -/

theorem insertDesc_perm (key : α → ℚ) (x : α) (l : List α) :
    (insertDesc key x l).Perm (x :: l) := by
  induction l with
  | nil => simp [insertDesc]
  | cons y ys ih =>
    by_cases h : key x < key y
    · simp only [insertDesc, if_pos h]
      exact ((ih.cons y).trans (List.Perm.swap x y ys)).symm.symm
    · simp [insertDesc, if_neg h]

theorem sortDescBy_perm (key : α → ℚ) (l : List α) :
    (sortDescBy key l).Perm l := by
  induction l with
  | nil => simp [sortDescBy]
  | cons x xs ih =>
    exact (insertDesc_perm key x (sortDescBy key xs)).trans (ih.cons x)

theorem sortDescBy_length (key : α → ℚ) (l : List α) :
    (sortDescBy key l).length = l.length :=
  (sortDescBy_perm key l).length_eq

theorem insertDesc_sorted (key : α → ℚ) (x : α) (l : List α)
    (h : l.Sorted (fun a b => key b ≤ key a)) :
    (insertDesc key x l).Sorted (fun a b => key b ≤ key a) := by
  induction l with
  | nil => simp [insertDesc]
  | cons y ys ih =>
    rw [List.sorted_cons] at h
    obtain ⟨hy, hys⟩ := h
    by_cases hxy : key x < key y
    · simp only [insertDesc, if_pos hxy]
      rw [List.sorted_cons]
      refine ⟨?_, ih hys⟩
      intro b hb
      rcases List.mem_cons.mp ((insertDesc_perm key x ys).mem_iff.mp hb) with
        hb | hb
      · subst hb; exact le_of_lt hxy
      · exact hy b hb
    · simp only [insertDesc, if_neg hxy]
      rw [List.sorted_cons]
      refine ⟨?_, List.sorted_cons.mpr ⟨hy, hys⟩⟩
      intro b hb
      rcases List.mem_cons.mp hb with hb | hb
      · subst hb; exact le_of_not_lt hxy
      · exact le_trans (hy b hb) (le_of_not_lt hxy)

theorem sortDescBy_sorted (key : α → ℚ) (l : List α) :
    (sortDescBy key l).Sorted (fun a b => key b ≤ key a) := by
  induction l with
  | nil => simp [sortDescBy]
  | cons x xs ih => exact insertDesc_sorted key x (sortDescBy key xs) ih

theorem get_volume_score_eq (c : Card) :
    get_volume_score c = c.volume.getD 0 := by
  unfold get_volume_score
  cases c.volume with
  | none => rfl
  | some v =>
    simp only [Option.getD_some]
    by_cases h : v = 0
    · simp [h]
    · simp [h]

/-! ### Claim C3 — probability-extractor safety -/

/-- C3 is refuted at a concrete input: on the market record
`{"calculated_odds": "abc"}` the unprotected `float(...)` of tier 1 raises
`ValueError`, so the extractor does not return a float; only tier 2 is
wrapped in try/except. -/
theorem C3_counterexample :
    ¬ ∃ q : ℚ, getMarketProbability (fun _ => .error ())
      ⟨some (.str "abc"), Option.none, Option.none, Option.none,
        Option.none⟩ = .ok q := by
  rintro ⟨q, hq⟩
  have h : getMarketProbability (fun _ => .error ())
      ⟨some (.str "abc"), Option.none, Option.none, Option.none,
        Option.none⟩ = .error () := rfl
  rw [h] at hq
  exact Except.noConfusion hq

/-- C3 (amended): every failure inside tier 2 (the outcome-price tier) is
caught and falls through — for any behaviour of `json.loads` — and the
extractor returns a float whenever the unprotected conversions of tiers 1
and 3 are not handed a non-numeric value: if the calculated-odds key is
absent and the probability field is absent (default 0.0) or numeric, a
float is always returned. -/
theorem C3_market_probability_total (jl : String → Except Unit PyVal)
    (m : RawMarket) (h1 : m.calculated_odds = Option.none)
    (h2 : m.probability = Option.none ∨ ∃ q, m.probability = some (.num q)) :
    ∃ q : ℚ, getMarketProbability jl m = .ok q := by
  have h3 : ∃ q0, pyFloat (m.probability.getD (.num 0)) = .ok q0 := by
    rcases h2 with h2 | ⟨q0, h2⟩
    · rw [h2]; exact ⟨0, rfl⟩
    · rw [h2]; exact ⟨q0, rfl⟩
  obtain ⟨q0, hq0⟩ := h3
  unfold getMarketProbability
  rw [h1]
  by_cases ht : pyTruthy (m.outcomePrices.getD (.list [])) = true
  · rw [if_pos ht]
    cases h4 : tier2 jl (m.outcomePrices.getD (.list [])) with
    | ok q => exact ⟨q, rfl⟩
    | error e => exact ⟨q0, hq0⟩
  · rw [if_neg ht]
    exact ⟨q0, hq0⟩

/-- C3 (amended) at a concrete input: a market with no probability-bearing
fields at all extracts to a float (0.0). -/
theorem C3_market_probability_total_witness :
    ∃ q : ℚ, getMarketProbability (fun _ => .error ())
      ⟨Option.none, Option.none, Option.none, Option.none, Option.none⟩ =
        .ok q :=
  C3_market_probability_total (fun _ => .error ())
    ⟨Option.none, Option.none, Option.none, Option.none, Option.none⟩
    rfl (Or.inl rfl)

/-! ### Claim C4 — market-selection bounds -/

/-- C4 is refuted at a concrete input: an event with six markets, each with
an explicit probability of 1.0, submits all six markets to the forecaster —
the code has no `MAX_MARKETS` cap (nor a `MIN_MARKETS` backfill); it keeps
every market at or above the 5% threshold. -/
theorem C4_counterexample :
    promptMarkets (fun _ => .error ())
        (List.replicate 6 (⟨Option.none, Option.none, some (.num 1),
          Option.none, Option.none⟩ : RawMarket)) =
      .ok (List.replicate 6 (⟨Option.none, Option.none, some (.num 1),
        Option.none, Option.none⟩ : RawMarket))
    ∧ ¬ (List.replicate 6 (⟨Option.none, Option.none, some (.num 1),
        Option.none, Option.none⟩ : RawMarket)).length ≤ 5 := by
  constructor
  · have hc : ¬ ((1 : ℚ) < MIN_PROBABILITY_THRESHOLD) := by
      unfold MIN_PROBABILITY_THRESHOLD; norm_num
    simp [List.replicate, promptMarkets, getMarketProbability, pyFloat,
      pyTruthy, hc, Except.bind, pure]
  · decide

/-- C4 (amended): whenever extraction succeeds on every market of the event,
the selection submitted to the forecaster is exactly the subsequence of
markets whose extracted probability is at least `MIN_PROBABILITY_THRESHOLD`
(5%), in input order — with no upper bound of `MAX_MARKETS = 5` and no
minimum of `MIN_MARKETS = 2`. -/
theorem C4_selection_is_threshold_filter (jl : String → Except Unit PyVal)
    (ms : List RawMarket)
    (h : ∀ m ∈ ms, ∃ q, getMarketProbability jl m = .ok q) :
    promptMarkets jl ms =
      .ok (ms.filter fun m =>
        decide (MIN_PROBABILITY_THRESHOLD ≤ okProb jl m)) := by
  induction ms with
  | nil => rfl
  | cons m rest ih =>
    obtain ⟨q, hq⟩ := h m (List.mem_cons_self m rest)
    have hrest := ih (fun x hx => h x (List.mem_cons_of_mem m hx))
    have hok : okProb jl m = q := by unfold okProb; rw [hq]
    unfold promptMarkets
    rw [hq, hrest]
    simp only [Except.bind, List.filter_cons, hok]
    by_cases hlt : q < MIN_PROBABILITY_THRESHOLD
    · rw [if_pos hlt]
      have : decide (MIN_PROBABILITY_THRESHOLD ≤ q) = false := by
        simp [not_le.mpr hlt]
      rw [this]
      rfl
    · rw [if_neg hlt]
      have : decide (MIN_PROBABILITY_THRESHOLD ≤ q) = true := by
        simp [not_lt.mp hlt]
      rw [this]
      rfl

/-- C4 (amended) at a concrete input: of two markets with probabilities 1.0
and 0.0, exactly the first passes the 5% filter. -/
theorem C4_selection_is_threshold_filter_witness :
    promptMarkets (fun _ => .error ())
      [⟨Option.none, Option.none, some (.num 1), Option.none, Option.none⟩,
       ⟨Option.none, Option.none, some (.num 0), Option.none, Option.none⟩] =
      .ok ([(⟨Option.none, Option.none, some (.num 1), Option.none,
          Option.none⟩ : RawMarket),
        ⟨Option.none, Option.none, some (.num 0), Option.none,
          Option.none⟩].filter fun m =>
        decide (MIN_PROBABILITY_THRESHOLD ≤ okProb (fun _ => .error ()) m)) := by
  refine C4_selection_is_threshold_filter (fun _ => .error ()) _ ?_
  intro m hm
  rcases List.mem_cons.mp hm with hm | hm
  · subst hm; exact ⟨1, rfl⟩
  · rcases List.mem_cons.mp hm with hm | hm
    · subst hm; exact ⟨0, rfl⟩
    · exact absurd hm (List.not_mem_nil m)

/-! ### Claim C7 — calibration classifier -/

/-- C7: the classifier, an ordered first-match cascade, is completely
characterised by its first two rules — it returns `true` exactly when the
eligible-market count is at least 2 and the lowercased title contains none
of the cumulative-framing markers; the competitive-marker rule (tier 3) and
the default (tier 4) both return `true`, so the cascade collapses to this
equivalence. -/
theorem C7_should_normalize_spec (title : Option String) (n : ℕ) :
    shouldNormalize title n = true ↔
      2 ≤ n ∧ ∀ kw ∈ ([" by ", "hit", "reach", "above", "below", "over",
        "under", "at least", "more than", "less than", "exceed",
        "surpass"] : List String),
        strContains (lowerStr (title.getD "")) kw = false := by
  simp only [shouldNormalize]
  by_cases h1 : n ≤ 1
  · simp only [if_pos h1]
    constructor
    · intro h; exact absurd h (by simp)
    · rintro ⟨h2, -⟩; omega
  · simp only [if_neg h1]
    by_cases h2 : cumulativeKeywords.any
        (fun kw => strContains (lowerStr (title.getD "")) kw) = true
    · simp only [if_pos h2]
      constructor
      · intro h; exact absurd h (by simp)
      · rintro ⟨-, hall⟩
        obtain ⟨kw, hmem, hkw⟩ := List.any_eq_true.mp h2
        have hfalse := hall kw hmem
        rw [hfalse] at hkw
        exact Bool.noConfusion hkw
    · simp only [if_neg h2]
      have hall : ∀ kw ∈ cumulativeKeywords,
          strContains (lowerStr (title.getD "")) kw = false := by
        intro kw hmem
        by_contra hc
        exact h2 (List.any_eq_true.mpr
          ⟨kw, hmem, by
            revert hc
            cases strContains (lowerStr (title.getD "")) kw <;> simp⟩)
      constructor
      · intro _; exact ⟨by omega, hall⟩
      · intro _
        by_cases h3 : competitiveKeywords.any
            (fun kw => strContains (lowerStr (title.getD "")) kw) = true
        · simp [h3]
        · simp [h3]

/-! ### Claim C8 — divergence scorer -/

/-- C8: the weighted alpha (divergence) score equals the card's trading
volume times the sum of the two largest values of
`|final probability − baseline probability|` over its markets — the first
two entries of the market-diff list sorted descending, which is a
permutation of the diffs sorted in non-increasing order — and a card with
zero (or missing) volume or no markets scores exactly 0. -/
theorem C8_divergence_score (c : Card) :
    get_weighted_alpha_score c =
      c.volume.getD 0 *
        ((sortDescBy (fun q => q) (c.markets.map marketDiff)).take 2).sum
    ∧ (sortDescBy (fun q => q) (c.markets.map marketDiff)).Sorted
        (fun a b => b ≤ a)
    ∧ (sortDescBy (fun q => q) (c.markets.map marketDiff)).Perm
        (c.markets.map marketDiff)
    ∧ ((c.volume.getD 0 = 0 ∨ c.markets = []) →
        get_weighted_alpha_score c = 0) := by
  have heq : get_weighted_alpha_score c =
      c.volume.getD 0 *
        ((sortDescBy (fun q => q) (c.markets.map marketDiff)).take 2).sum := by
    unfold get_weighted_alpha_score
    cases hv : c.volume with
    | none => simp
    | some v =>
      by_cases h0 : v = 0
      · simp [h0]
      · simp [h0]
  refine ⟨heq, sortDescBy_sorted _ _, sortDescBy_perm _ _, ?_⟩
  rintro (h | h)
  · rw [heq, h, zero_mul]
  · rw [heq, h]
    simp [sortDescBy]


/-- C8 at a concrete input: a card with a missing volume scores 0. -/
theorem C8_divergence_score_witness :
    (noVolumeCard.volume.getD 0 = 0 ∨ noVolumeCard.markets = [])
    ∧ get_weighted_alpha_score noVolumeCard = 0 :=
  ⟨Or.inl rfl, (C8_divergence_score noVolumeCard).2.2.2 (Or.inl rfl)⟩

/-! ### Claims C2 and C5 — normalizer -/

theorem roundHalfEven_intCast (n : ℤ) : roundHalfEven (n : ℚ) = n := by
  unfold roundHalfEven
  rw [Int.floor_intCast]
  simp only [sub_self]
  norm_num

theorem finalPct_map_sum (S : ℚ) (l : List ℚ) :
    (l.map (fun v => finalPct true S v)).sum = l.sum / S * 100 := by
  have h : (fun v : ℚ => finalPct true S v) = fun v : ℚ => v / S * 100 := rfl
  rw [h]
  induction l with
  | nil => simp
  | cons x xs ih =>
    simp only [List.map_cons, List.sum_cons, ih]
    ring

/-- C2: when the classifier orders normalization and the base
`S = Σ calibrated (analyzed) + Σ baseline (unanalyzed)` is positive, the
final percentages computed by `transform_to_raw_analysis` over the event's
markets sum to exactly 100 — i.e. the final probabilities sum to exactly 1,
a fortiori within the 1e-6 tolerance — and the stored
`ai_calibrated_odds_pct` values are precisely their 2-decimal roundings. -/
theorem C2_normalized_sum (jl : String → Except Unit PyVal)
    (ai : List (String × AIMarket)) (oms : List RawMarket)
    (title : Option String) (amp : List (String × ℚ))
    (hamp : allMarketProbs jl oms = .ok amp)
    (hsn : shouldNormalize title oms.length = true)
    (hS : 0 < totalAiProb ai + ((unanalyzedProbs ai amp).map Prod.snd).sum) :
    ∃ pcts : List ℚ,
      transformFinalPcts jl ai oms title = .ok pcts ∧
      pcts.sum = 100 ∧
      |pcts.sum / 100 - 1| ≤ 1 / 1000000 ∧
      (transform_to_raw_analysis jl (some ai) oms title).map
          (fun es => es.map fun p => p.2.ai_calibrated_odds_pct) =
        .ok (pcts.map round2) := by
  have hbase : normalizationBase true
      (totalAiProb ai + ((unanalyzedProbs ai amp).map Prod.snd).sum) =
      totalAiProb ai + ((unanalyzedProbs ai amp).map Prod.snd).sum := by
    unfold normalizationBase
    simp [not_le.mpr hS]
  have hsum : ((ai.map fun p => finalPct true
      (totalAiProb ai + ((unanalyzedProbs ai amp).map Prod.snd).sum)
      (p.2.ai_calibrated_odds.getD 0))
    ++ ((unanalyzedProbs ai amp).map fun p => finalPct true
      (totalAiProb ai + ((unanalyzedProbs ai amp).map Prod.snd).sum)
      p.2)).sum = 100 := by
    rw [List.sum_append]
    have h1 : (ai.map fun p => finalPct true
        (totalAiProb ai + ((unanalyzedProbs ai amp).map Prod.snd).sum)
        (p.2.ai_calibrated_odds.getD 0)) =
        ((ai.map fun p => p.2.ai_calibrated_odds.getD 0).map
          (fun v => finalPct true
            (totalAiProb ai + ((unanalyzedProbs ai amp).map Prod.snd).sum)
            v)) := by
      rw [List.map_map]
      rfl
    have h2 : ((unanalyzedProbs ai amp).map fun p => finalPct true
        (totalAiProb ai + ((unanalyzedProbs ai amp).map Prod.snd).sum)
        p.2) =
        (((unanalyzedProbs ai amp).map Prod.snd).map
          (fun v => finalPct true
            (totalAiProb ai + ((unanalyzedProbs ai amp).map Prod.snd).sum)
            v)) := by
      rw [List.map_map]
      rfl
    rw [h1, h2, finalPct_map_sum, finalPct_map_sum]
    have hTA : (ai.map fun p => p.2.ai_calibrated_odds.getD 0).sum =
        totalAiProb ai := rfl
    rw [hTA]
    have hne : totalAiProb ai +
        ((unanalyzedProbs ai amp).map Prod.snd).sum ≠ 0 := ne_of_gt hS
    field_simp
    ring
  refine ⟨(ai.map fun p => finalPct true
      (totalAiProb ai + ((unanalyzedProbs ai amp).map Prod.snd).sum)
      (p.2.ai_calibrated_odds.getD 0))
    ++ ((unanalyzedProbs ai amp).map fun p => finalPct true
      (totalAiProb ai + ((unanalyzedProbs ai amp).map Prod.snd).sum) p.2),
    ?_, hsum, ?_, ?_⟩
  · unfold transformFinalPcts
    rw [hamp]
    simp only [hsn]
    rw [hbase]
  · rw [hsum]
    norm_num
  · unfold transform_to_raw_analysis
    rw [hamp]
    simp only [hsn, Except.map, List.map_append, List.map_map]
    rw [hbase]
    rfl


/-- C2 at the spec's concrete scenario (title "Who will win the election?",
three analyzed markets, `S = 1.1`): the final percentages sum to 100. -/
theorem C2_normalized_sum_witness :
    ∃ pcts : List ℚ,
      transformFinalPcts jlW aiW omsW (some "Who will win the election?") =
        .ok pcts ∧
      pcts.sum = 100 ∧
      |pcts.sum / 100 - 1| ≤ 1 / 1000000 ∧
      (transform_to_raw_analysis jlW (some aiW) omsW
          (some "Who will win the election?")).map
          (fun es => es.map fun p => p.2.ai_calibrated_odds_pct) =
        .ok (pcts.map round2) :=
  C2_normalized_sum jlW aiW omsW (some "Who will win the election?") ampW
    rfl (by decide)
    (by rw [show unanalyzedProbs aiW ampW = [] from rfl]
        norm_num [totalAiProb, aiW])

theorem roundHalfEven_150 : round2 ((3 : ℚ) / 2 * 100) = 150 := by
  have h : ((3 : ℚ) / 2 * 100) * 100 = ((15000 : ℤ) : ℚ) := by norm_num
  unfold round2
  rw [h, roundHalfEven_intCast]
  norm_num

/-- C5 is refuted at a concrete input: an event whose classifier says not to
normalize (single AI market, no original markets) stores an analyzed final
probability of 1.5 (150%) when the forecaster returns a calibrated value of
1.5 — the code does not clamp to [0, 1], while the claim says the final
probability is the calibrated value clamped to [0, 1] (which would be 1). -/
theorem C5_counterexample :
    transform_to_raw_analysis (fun _ => .error ())
        (some [("m1", ⟨some (3 / 2), Option.none, Option.none, Option.none,
          Option.none, Option.none⟩)]) [] (some "t") =
      .ok [("m1", ⟨150, 0, Option.none, Option.none, Option.none,
        Option.none, true, false⟩)]
    ∧ (150 : ℚ) / 100 ≠ max 0 (min 1 (3 / 2)) := by
  constructor
  · have hstep : transform_to_raw_analysis (fun _ => .error ())
        (some [("m1", ⟨some (3 / 2), Option.none, Option.none, Option.none,
          Option.none, Option.none⟩)]) [] (some "t") =
      .ok [("m1", ⟨round2 (3 / 2 * 100), 0, Option.none, Option.none,
        Option.none, Option.none, true, false⟩)] := rfl
    rw [hstep, roundHalfEven_150]
  · rw [min_eq_left (by norm_num : (1 : ℚ) ≤ 3 / 2),
      max_eq_right (by norm_num : (0 : ℚ) ≤ 1)]
    norm_num

/-- C5 (amended): when the classifier says not to normalize, each analyzed
market's final percentage is its calibrated value times 100 — unchanged and
in particular NOT clamped to [0, 1] — and each unanalyzed market's final
percentage is its baseline probability times 100; the stored
`ai_calibrated_odds_pct` values are the 2-decimal roundings of these. -/
theorem C5_no_normalize (jl : String → Except Unit PyVal)
    (ai : List (String × AIMarket)) (oms : List RawMarket)
    (title : Option String) (amp : List (String × ℚ))
    (hamp : allMarketProbs jl oms = .ok amp)
    (hsn : shouldNormalize title oms.length = false) :
    transformFinalPcts jl ai oms title =
      .ok ((ai.map fun p => p.2.ai_calibrated_odds.getD 0 * 100)
        ++ ((unanalyzedProbs ai amp).map fun p => p.2 * 100))
    ∧ (transform_to_raw_analysis jl (some ai) oms title).map
        (fun es => es.map fun p => (p.1, p.2.ai_calibrated_odds_pct)) =
      .ok ((ai.map fun p =>
          (p.1, round2 (p.2.ai_calibrated_odds.getD 0 * 100)))
        ++ ((unanalyzedProbs ai amp).map fun p => (p.1, round2 (p.2 * 100)))) := by
  constructor
  · unfold transformFinalPcts
    rw [hamp]
    simp only [hsn]
    rfl
  · unfold transform_to_raw_analysis
    rw [hamp]
    simp only [hsn, Except.map, List.map_append, List.map_map]
    rfl

/-- C5 (amended) at a concrete input: one analyzed market calibrated to 0.3
and two unanalyzed baselines for an event title containing "under" (no
normalization). -/
theorem C5_no_normalize_witness :
    transformFinalPcts jlW aiW omsW (some "Will it stay under 40C?") =
      .ok ((aiW.map fun p => p.2.ai_calibrated_odds.getD 0 * 100)
        ++ ((unanalyzedProbs aiW ampW).map fun p => p.2 * 100))
    ∧ (transform_to_raw_analysis jlW (some aiW) omsW
        (some "Will it stay under 40C?")).map
        (fun es => es.map fun p => (p.1, p.2.ai_calibrated_odds_pct)) =
      .ok ((aiW.map fun p =>
          (p.1, round2 (p.2.ai_calibrated_odds.getD 0 * 100)))
        ++ ((unanalyzedProbs aiW ampW).map fun p =>
          (p.1, round2 (p.2 * 100)))) :=
  C5_no_normalize jlW aiW omsW (some "Will it stay under 40C?") ampW rfl
    (by decide)

/-! ### Zipper-merge lemmas -/

theorem findUnused_eq_none_iff (used : List String) (A : List Card) :
    findUnused used A = Option.none ↔ ∀ c ∈ A, c.id ∈ used := by
  induction A with
  | nil => simp [findUnused]
  | cons c rest ih =>
    by_cases h : c.id ∈ used
    · simp [findUnused, h, ih]
    · simp [findUnused, h]

theorem findUnused_eq_some (used : List String) :
    ∀ (A A2 : List Card) (c : Card), findUnused used A = some (c, A2) →
      c.id ∉ used ∧ ∃ pre, A = pre ++ c :: A2 ∧ ∀ p ∈ pre, p.id ∈ used := by
  intro A
  induction A with
  | nil => intro A2 c h; exact absurd h (by simp [findUnused])
  | cons d rest ih =>
    intro A2 c h
    unfold findUnused at h
    by_cases hd : d.id ∈ used
    · rw [if_pos hd] at h
      obtain ⟨hc, pre, heq, hpre⟩ := ih A2 c h
      refine ⟨hc, d :: pre, by rw [heq]; rfl, ?_⟩
      intro p hp
      rcases List.mem_cons.mp hp with hp | hp
      · subst hp; exact hd
      · exact hpre p hp
    · rw [if_neg hd] at h
      have h2 := Option.some.inj h
      have hdc : d = c := congrArg Prod.fst h2
      have hrest : rest = A2 := congrArg Prod.snd h2
      subst hdc; subst hrest
      exact ⟨hd, [], rfl, by intro p hp; exact absurd hp (List.not_mem_nil p)⟩

theorem exists_fresh {LVids used : List String} (hLVnd : LVids.Nodup)
    (hlen : used.length < LVids.length) : ∃ i ∈ LVids, i ∉ used := by
  by_contra hcon
  push_neg at hcon
  have hsp : LVids.Subperm used := List.Nodup.subperm hLVnd hcon
  exact absurd hsp.length_le (by omega)

theorem ZipInv.swap {LVids : List String} {A B : List Card}
    {used : List String} {acc : List Card} (h : ZipInv LVids A B used acc) :
    ZipInv LVids B A used acc :=
  ⟨h.husedeq, h.hnd, h.hsub, h.hBids, h.hAids, h.hB, h.hA⟩

theorem ZipInv.acc_le {LVids : List String} {A B : List Card}
    {used : List String} {acc : List Card} (h : ZipInv LVids A B used acc) :
    acc.length ≤ LVids.length := by
  have h1 : used.length = acc.length := by rw [h.husedeq, List.length_map]
  have h2 : used.Subperm LVids := List.Nodup.subperm h.hnd h.hsub
  have := h2.length_le
  omega

theorem zip_progress {LVids : List String} {A B : List Card}
    {used : List String} {acc : List Card} (inv : ZipInv LVids A B used acc)
    (hLVnd : LVids.Nodup) (hguard : acc.length < LVids.length) :
    ∃ c A2, findUnused used A = some (c, A2) := by
  have hul : used.length = acc.length := by rw [inv.husedeq, List.length_map]
  obtain ⟨i, hiLV, hius⟩ := @exists_fresh LVids used hLVnd (by omega)
  obtain ⟨c0, hc0, hc0id⟩ := inv.hA i hiLV hius
  cases hfind : findUnused used A with
  | none =>
    have := (findUnused_eq_none_iff used A).mp hfind c0 hc0
    rw [hc0id] at this
    exact absurd this hius
  | some p =>
    obtain ⟨c, A2⟩ := p
    exact ⟨c, A2, rfl⟩

theorem zip_step {LVids : List String} {A B : List Card}
    {used : List String} {acc : List Card} {c : Card} {A2 : List Card}
    (inv : ZipInv LVids A B used acc)
    (hfind : findUnused used A = some (c, A2)) :
    ZipInv LVids A2 B (c.id :: used) (c :: acc) := by
  obtain ⟨hcus, pre, hAeq, hpre⟩ := findUnused_eq_some used A A2 c hfind
  have hcA : c ∈ A := by rw [hAeq]; exact List.mem_append_right pre (List.mem_cons_self c A2)
  refine ⟨?_, ?_, ?_, ?_, inv.hBids, ?_, ?_⟩
  · rw [List.map_cons, ← inv.husedeq]
  · exact List.nodup_cons.mpr ⟨hcus, inv.hnd⟩
  · intro i hi
    rcases List.mem_cons.mp hi with hi | hi
    · subst hi; exact inv.hAids c hcA
    · exact inv.hsub i hi
  · intro d hd
    exact inv.hAids d (by rw [hAeq]; exact List.mem_append_right pre (List.mem_cons_of_mem c hd))
  · intro i hiLV hius
    have hius2 : i ∉ used := fun h => hius (List.mem_cons_of_mem _ h)
    have hine : i ≠ c.id := fun h => hius (h ▸ List.mem_cons_self c.id used)
    obtain ⟨d, hdA, hdid⟩ := inv.hA i hiLV hius2
    rw [hAeq] at hdA
    rcases List.mem_append.mp hdA with hd | hd
    · exact absurd (hdid ▸ hpre d hd) hius2
    · rcases List.mem_cons.mp hd with hd | hd
      · subst hd; exact absurd hdid.symm hine
      · exact ⟨d, hd, hdid⟩
  · intro i hiLV hius
    have hius2 : i ∉ used := fun h => hius (List.mem_cons_of_mem _ h)
    exact inv.hB i hiLV hius2

theorem zipLoop_spec (LVids : List String) (hLVnd : LVids.Nodup) :
    ∀ fuel (A B : List Card) (used : List String) (acc : List Card)
      (turn : Bool), LVids.length - acc.length < fuel →
      ZipInv LVids A B used acc →
      (zipLoop fuel A B used acc turn LVids.length).length = LVids.length ∧
      ((zipLoop fuel A B used acc turn LVids.length).map Card.id).Nodup ∧
      ∀ i ∈ (zipLoop fuel A B used acc turn LVids.length).map Card.id,
        i ∈ LVids := by
  intro fuel
  induction fuel with
  | zero =>
    intro A B used acc turn hfuel inv
    exact absurd hfuel (by omega)
  | succ fuel ih =>
    intro A B used acc turn hfuel inv
    by_cases hguard : acc.length < LVids.length
    · cases turn with
      | true =>
        obtain ⟨c, A2, hfind⟩ := zip_progress inv hLVnd hguard
        have hstep := zip_step inv hfind
        have hrec := ih A2 B (c.id :: used) (c :: acc) false
          (by simp only [List.length_cons]; omega) hstep
        unfold zipLoop
        rw [if_pos hguard]
        simpa [hfind] using hrec
      | false =>
        obtain ⟨c, B2, hfind⟩ := zip_progress inv.swap hLVnd hguard
        have hstep := (zip_step inv.swap hfind).swap
        have hrec := ih A B2 (c.id :: used) (c :: acc) true
          (by simp only [List.length_cons]; omega) hstep
        unfold zipLoop
        rw [if_pos hguard]
        simpa [hfind] using hrec
    · have hacc : acc.length = LVids.length :=
        le_antisymm inv.acc_le (not_lt.mp hguard)
      unfold zipLoop
      rw [if_neg hguard]
      refine ⟨by simpa using hacc, ?_, ?_⟩
      · rw [List.map_reverse, List.nodup_reverse, ← inv.husedeq]
        exact inv.hnd
      · intro i hi
        rw [List.map_reverse, List.mem_reverse, ← inv.husedeq] at hi
        exact inv.hsub i hi

theorem zipLoop_fuel_eq (LVids : List String) (hLVnd : LVids.Nodup) :
    ∀ k, ∀ (A B : List Card) (used : List String) (acc : List Card)
      (turn : Bool) (f1 f2 : ℕ),
      LVids.length - acc.length ≤ k → k < f1 → k < f2 →
      ZipInv LVids A B used acc →
      zipLoop f1 A B used acc turn LVids.length =
        zipLoop f2 A B used acc turn LVids.length := by
  intro k
  induction k with
  | zero =>
    intro A B used acc turn f1 f2 hk hf1 hf2 inv
    obtain ⟨f1p, rfl⟩ := Nat.exists_eq_succ_of_ne_zero (by omega : f1 ≠ 0)
    obtain ⟨f2p, rfl⟩ := Nat.exists_eq_succ_of_ne_zero (by omega : f2 ≠ 0)
    have hguard : ¬ acc.length < LVids.length := by omega
    unfold zipLoop
    rw [if_neg hguard, if_neg hguard]
  | succ k ih =>
    intro A B used acc turn f1 f2 hk hf1 hf2 inv
    obtain ⟨f1p, rfl⟩ := Nat.exists_eq_succ_of_ne_zero (by omega : f1 ≠ 0)
    obtain ⟨f2p, rfl⟩ := Nat.exists_eq_succ_of_ne_zero (by omega : f2 ≠ 0)
    by_cases hguard : acc.length < LVids.length
    · cases turn with
      | true =>
        obtain ⟨c, A2, hfind⟩ := zip_progress inv hLVnd hguard
        have hstep := zip_step inv hfind
        have hrec := ih A2 B (c.id :: used) (c :: acc) false f1p f2p
          (by simp only [List.length_cons]; omega) (by omega) (by omega)
          hstep
        unfold zipLoop
        rw [if_pos hguard, if_pos hguard]
        simpa [hfind] using hrec
      | false =>
        obtain ⟨c, B2, hfind⟩ := zip_progress inv.swap hLVnd hguard
        have hstep := (zip_step inv.swap hfind).swap
        have hrec := ih A B2 (c.id :: used) (c :: acc) true f1p f2p
          (by simp only [List.length_cons]; omega) (by omega) (by omega)
          hstep
        unfold zipLoop
        rw [if_pos hguard, if_pos hguard]
        simpa [hfind] using hrec
    · unfold zipLoop
      rw [if_neg hguard, if_neg hguard]

theorem mergeCards_inv (l : List Card) :
    ZipInv (l.map Card.id) (sortDescBy get_volume_score l)
      (sortDescBy get_weighted_alpha_score l) [] [] := by
  refine ⟨rfl, List.nodup_nil, ?_, ?_, ?_, ?_, ?_⟩
  · intro i hi; exact absurd hi (List.not_mem_nil i)
  · intro c hc
    exact List.mem_map_of_mem Card.id ((sortDescBy_perm _ l).subset hc)
  · intro c hc
    exact List.mem_map_of_mem Card.id ((sortDescBy_perm _ l).subset hc)
  · intro i hi _
    obtain ⟨c, hc, rfl⟩ := List.mem_map.mp hi
    exact ⟨c, (sortDescBy_perm get_volume_score l).mem_iff.mpr hc, rfl⟩
  · intro i hi _
    obtain ⟨c, hc, rfl⟩ := List.mem_map.mp hi
    exact ⟨c, (sortDescBy_perm get_weighted_alpha_score l).mem_iff.mpr hc,
      rfl⟩

theorem mergeCards_spec (l : List Card) (h : (l.map Card.id).Nodup) :
    (mergeCards l).length = l.length ∧
    ((mergeCards l).map Card.id).Perm (l.map Card.id) := by
  have hlen : (l.map Card.id).length = l.length := by simp
  have hspec := zipLoop_spec (l.map Card.id) h (l.length + 1)
    (sortDescBy get_volume_score l) (sortDescBy get_weighted_alpha_score l)
    [] [] true (by simp) (mergeCards_inv l)
  rw [hlen] at hspec
  obtain ⟨h1, h2, h3⟩ := hspec
  unfold mergeCards
  refine ⟨h1, ?_⟩
  have hsp : (List.map Card.id (zipLoop (l.length + 1)
      (sortDescBy get_volume_score l)
      (sortDescBy get_weighted_alpha_score l) [] [] true
      l.length)).Subperm (l.map Card.id) :=
    List.Nodup.subperm h2 (fun i hi => h3 i hi)
  exact hsp.perm_of_length_le (by simp [h1])

theorem mergeCards_length (l : List Card) (h : (l.map Card.id).Nodup) :
    (mergeCards l).length = l.length :=
  (mergeCards_spec l h).1

/-! ### Claim C1 — zipper merge: exactly-once and length -/

/-- C1: for an input collection whose event ids are pairwise distinct, the
dual-rank zipper merge outputs every input id exactly once, and the merged
output length equals the number of input events. -/
theorem C1_zipper_merge (l : List Card) (h : (l.map Card.id).Nodup) :
    (mergeCards l).length = l.length ∧
    ∀ i ∈ l.map Card.id, ((mergeCards l).map Card.id).count i = 1 := by
  obtain ⟨h1, hperm⟩ := mergeCards_spec l h
  refine ⟨h1, ?_⟩
  intro i hi
  rw [hperm.count_eq]
  exact List.count_eq_one_of_mem h hi

/-- C1 at a concrete input: three cards with distinct ids. -/
theorem C1_zipper_merge_witness :
    (mergeCards [mkPlainCard "a" 3, mkPlainCard "b" 2,
      mkPlainCard "c" 9]).length =
      ([mkPlainCard "a" 3, mkPlainCard "b" 2, mkPlainCard "c" 9] :
        List Card).length ∧
    ∀ i ∈ ([mkPlainCard "a" 3, mkPlainCard "b" 2,
        mkPlainCard "c" 9] : List Card).map Card.id,
      ((mergeCards [mkPlainCard "a" 3, mkPlainCard "b" 2,
        mkPlainCard "c" 9]).map Card.id).count i = 1 :=
  C1_zipper_merge [mkPlainCard "a" 3, mkPlainCard "b" 2, mkPlainCard "c" 9]
    (by decide)

/-! ### Claim C10 — zipper-loop termination -/

/-- C10: with pairwise-distinct ids the zipper loop terminates — run with
the canonical fuel `l.length + 1` it fills the output to the full input
length, falsifying the loop condition, and giving it any larger fuel
changes nothing (the recursion has converged). -/
theorem C10_zipper_terminates (l : List Card)
    (h : (l.map Card.id).Nodup) :
    (mergeCards l).length = l.length ∧
    ∀ extra : ℕ,
      zipLoop (l.length + 1 + extra) (sortDescBy get_volume_score l)
        (sortDescBy get_weighted_alpha_score l) [] [] true l.length =
      mergeCards l := by
  refine ⟨mergeCards_length l h, ?_⟩
  intro extra
  unfold mergeCards
  have heq := zipLoop_fuel_eq (l.map Card.id) h l.length
    (sortDescBy get_volume_score l) (sortDescBy get_weighted_alpha_score l)
    [] [] true (l.length + 1 + extra) (l.length + 1) (by simp) (by omega)
    (by omega) (mergeCards_inv l)
  rw [show (l.map Card.id).length = l.length by simp] at heq
  exact heq

/-- C10 at a concrete input: extra fuel does not change the merge of two
distinct-id cards. -/
theorem C10_zipper_terminates_witness :
    (mergeCards [mkPlainCard "x" 1, mkPlainCard "y" 2]).length =
      ([mkPlainCard "x" 1, mkPlainCard "y" 2] : List Card).length ∧
    ∀ extra : ℕ,
      zipLoop (([mkPlainCard "x" 1, mkPlainCard "y" 2] :
          List Card).length + 1 + extra)
        (sortDescBy get_volume_score
          [mkPlainCard "x" 1, mkPlainCard "y" 2])
        (sortDescBy get_weighted_alpha_score
          [mkPlainCard "x" 1, mkPlainCard "y" 2]) [] [] true
        ([mkPlainCard "x" 1, mkPlainCard "y" 2] : List Card).length =
      mergeCards [mkPlainCard "x" 1, mkPlainCard "y" 2] :=
  C10_zipper_terminates [mkPlainCard "x" 1, mkPlainCard "y" 2] (by decide)

/-! ### Claim C6 — feed totals and pagination -/

/-- C6 is refuted at a concrete input: for a store holding one active but
closed card, the count query (`is_active` only) reports `total = 1`, while
the candidate pool of the merge (`base_query`: active, not closed, not
archived, no sports tag) is empty, so the merged sequence has length 0. -/
theorem C6_counterexample :
    ¬ ((get_card_list [closedActiveCard] 1 20).total =
        (mergedFeed [closedActiveCard]).length) := by
  intro h
  rw [show (get_card_list [closedActiveCard] 1 20).total = 1 from rfl,
    show (mergedFeed [closedActiveCard]).length = 0 from rfl] at h
  omega

/-- C6 (amended): `total` is the count of ACTIVE events (the count query
ignores the closed/archived/sports filters of the list query), while the
merged sequence is the dual-rank merge of the candidate pool — the top
`CANDIDATE_POOL_SIZE = 100` eligible events by volume — so the merged
length is `min (# eligible events) 100`, not `total`.  The returned page is
the slice `merged[(page−1)·pageSize : page·pageSize]`, and a page beyond
the merged length yields an empty list rather than an error. -/
theorem C6_pagination (db : List Card) (page pageSize : ℕ)
    (h : ((candidatePool db).map Card.id).Nodup) :
    (get_card_list db page pageSize).total =
      (db.filter (fun c => c.is_active)).length ∧
    (mergedFeed db).length =
      min (db.filter eligibleCard).length CANDIDATE_POOL_SIZE ∧
    (get_card_list db page pageSize).list =
      ((mergedFeed db).drop ((page - 1) * pageSize)).take pageSize ∧
    ((mergedFeed db).length ≤ (page - 1) * pageSize →
      (get_card_list db page pageSize).list = []) := by
  have hmlen : (mergedFeed db).length =
      min (db.filter eligibleCard).length CANDIDATE_POOL_SIZE := by
    unfold mergedFeed
    rw [mergeCards_length (candidatePool db) h]
    unfold candidatePool
    rw [List.length_take, sortDescBy_length]
    exact Nat.min_comm _ _
  refine ⟨rfl, hmlen, rfl, ?_⟩
  intro hbeyond
  show ((mergedFeed db).drop ((page - 1) * pageSize)).take pageSize = []
  rw [List.drop_eq_nil_of_le hbeyond, List.take_nil]

/-- C6 (amended) at a concrete input: two eligible cards, page 2 of size 20
is empty. -/
theorem C6_pagination_witness :
    (get_card_list [mkPlainCard "a" 3, mkPlainCard "b" 2] 2 20).total =
      (([mkPlainCard "a" 3, mkPlainCard "b" 2] : List Card).filter
        (fun c => c.is_active)).length ∧
    (mergedFeed [mkPlainCard "a" 3, mkPlainCard "b" 2]).length =
      min (([mkPlainCard "a" 3, mkPlainCard "b" 2] : List Card).filter
        eligibleCard).length CANDIDATE_POOL_SIZE ∧
    (get_card_list [mkPlainCard "a" 3, mkPlainCard "b" 2] 2 20).list =
      ((mergedFeed [mkPlainCard "a" 3, mkPlainCard "b" 2]).drop
        ((2 - 1) * 20)).take 20 ∧
    ((mergedFeed [mkPlainCard "a" 3, mkPlainCard "b" 2]).length ≤
        (2 - 1) * 20 →
      (get_card_list [mkPlainCard "a" 3, mkPlainCard "b" 2] 2 20).list =
        []) :=
  C6_pagination [mkPlainCard "a" 3, mkPlainCard "b" 2] 2 20 (by decide)

/-! ### Claim C9 — merge determinism -/

theorem rankProj_id {c1 c2 : Card} (h : rankProj c1 = rankProj c2) :
    c1.id = c2.id := by
  unfold rankProj at h
  simp only [Prod.mk.injEq] at h
  exact h.1

theorem rankProj_volume {c1 c2 : Card} (h : rankProj c1 = rankProj c2) :
    c1.volume = c2.volume := by
  unfold rankProj at h
  simp only [Prod.mk.injEq] at h
  exact h.2.1

theorem rankProj_markets {c1 c2 : Card} (h : rankProj c1 = rankProj c2) :
    c1.markets.map mproj = c2.markets.map mproj := by
  unfold rankProj at h
  simp only [Prod.mk.injEq] at h
  exact h.2.2

theorem marketDiff_congr {m1 m2 : MarketDict} (h : mproj m1 = mproj m2) :
    marketDiff m1 = marketDiff m2 := by
  unfold mproj at h
  simp only [Prod.mk.injEq] at h
  obtain ⟨h1, h2, h3⟩ := h
  unfold marketDiff adjProbOf
  rw [h1, h2, h3]

theorem map_marketDiff_congr :
    ∀ {l1 l2 : List MarketDict}, l1.map mproj = l2.map mproj →
      l1.map marketDiff = l2.map marketDiff := by
  intro l1
  induction l1 with
  | nil =>
    intro l2 h
    cases l2 with
    | nil => rfl
    | cons m ms => exact absurd h (by simp)
  | cons m ms ih =>
    intro l2 h
    cases l2 with
    | nil => exact absurd h (by simp)
    | cons m2 ms2 =>
      simp only [List.map_cons, List.cons.injEq] at h ⊢
      exact ⟨marketDiff_congr h.1, ih h.2⟩

theorem get_volume_score_congr {c1 c2 : Card}
    (h : rankProj c1 = rankProj c2) :
    get_volume_score c1 = get_volume_score c2 := by
  unfold get_volume_score
  rw [rankProj_volume h]

theorem get_weighted_alpha_score_congr {c1 c2 : Card}
    (h : rankProj c1 = rankProj c2) :
    get_weighted_alpha_score c1 = get_weighted_alpha_score c2 := by
  unfold get_weighted_alpha_score
  rw [rankProj_volume h, map_marketDiff_congr (rankProj_markets h)]

theorem insertDesc_map_congr (key : Card → ℚ)
    (hkey : ∀ a b, rankProj a = rankProj b → key a = key b) :
    ∀ {x y : Card} {l1 l2 : List Card}, rankProj x = rankProj y →
      l1.map rankProj = l2.map rankProj →
      (insertDesc key x l1).map rankProj =
        (insertDesc key y l2).map rankProj := by
  intro x y l1
  induction l1 generalizing x y with
  | nil =>
    intro l2 hxy hl
    cases l2 with
    | nil => simp [insertDesc, hxy]
    | cons b bs => exact absurd hl (by simp)
  | cons a as ih =>
    intro l2 hxy hl
    cases l2 with
    | nil => exact absurd hl (by simp)
    | cons b bs =>
      simp only [List.map_cons, List.cons.injEq] at hl
      obtain ⟨hab, hasbs⟩ := hl
      have hk1 : key x = key y := hkey x y hxy
      have hk2 : key a = key b := hkey a b hab
      unfold insertDesc
      by_cases hlt : key x < key a
      · rw [if_pos hlt, if_pos (by rw [← hk1, ← hk2]; exact hlt)]
        simp only [List.map_cons, List.cons.injEq]
        exact ⟨hab, ih hxy hasbs⟩
      · rw [if_neg hlt, if_neg (by rw [← hk1, ← hk2]; exact hlt)]
        simp only [List.map_cons, List.cons.injEq]
        exact ⟨hxy, hab, hasbs⟩

theorem sortDescBy_map_congr (key : Card → ℚ)
    (hkey : ∀ a b, rankProj a = rankProj b → key a = key b) :
    ∀ {l1 l2 : List Card}, l1.map rankProj = l2.map rankProj →
      (sortDescBy key l1).map rankProj =
        (sortDescBy key l2).map rankProj := by
  intro l1
  induction l1 with
  | nil =>
    intro l2 h
    cases l2 with
    | nil => rfl
    | cons b bs => exact absurd h (by simp)
  | cons a as ih =>
    intro l2 h
    cases l2 with
    | nil => exact absurd h (by simp)
    | cons b bs =>
      simp only [List.map_cons, List.cons.injEq] at h
      exact insertDesc_map_congr key hkey h.1 (ih h.2)

theorem findUnused_congr (used : List String) :
    ∀ {A1 A2 : List Card}, A1.map rankProj = A2.map rankProj →
      (findUnused used A1 = Option.none ∧
        findUnused used A2 = Option.none) ∨
      (∃ c1 r1 c2 r2, findUnused used A1 = some (c1, r1) ∧
        findUnused used A2 = some (c2, r2) ∧ rankProj c1 = rankProj c2 ∧
        r1.map rankProj = r2.map rankProj) := by
  intro A1
  induction A1 with
  | nil =>
    intro A2 h
    cases A2 with
    | nil => exact Or.inl ⟨rfl, rfl⟩
    | cons b bs => exact absurd h (by simp)
  | cons a as ih =>
    intro A2 h
    cases A2 with
    | nil => exact absurd h (by simp)
    | cons b bs =>
      simp only [List.map_cons, List.cons.injEq] at h
      obtain ⟨hab, hasbs⟩ := h
      have hid : a.id = b.id := rankProj_id hab
      unfold findUnused
      by_cases hmem : a.id ∈ used
      · rw [if_pos hmem, if_pos (hid ▸ hmem)]
        exact ih hasbs
      · rw [if_neg hmem, if_neg (hid ▸ hmem)]
        exact Or.inr ⟨a, as, b, bs, rfl, rfl, hab, hasbs⟩

theorem zipLoop_map_congr :
    ∀ fuel (A1 B1 A2 B2 : List Card) (used : List String)
      (acc1 acc2 : List Card) (turn : Bool) (target : ℕ),
      A1.map rankProj = A2.map rankProj →
      B1.map rankProj = B2.map rankProj →
      acc1.map rankProj = acc2.map rankProj →
      (zipLoop fuel A1 B1 used acc1 turn target).map rankProj =
        (zipLoop fuel A2 B2 used acc2 turn target).map rankProj := by
  intro fuel
  induction fuel with
  | zero =>
    intro A1 B1 A2 B2 used acc1 acc2 turn target hA hB hacc
    simp only [zipLoop, List.map_reverse, hacc]
  | succ fuel ih =>
    intro A1 B1 A2 B2 used acc1 acc2 turn target hA hB hacc
    have hlen : acc1.length = acc2.length := by
      have := congrArg List.length hacc
      simpa using this
    unfold zipLoop
    by_cases hguard : acc1.length < target
    · have hguard2 : acc2.length < target := by omega
      cases turn with
      | true =>
        rcases findUnused_congr used hA with ⟨h1, h2⟩ |
          ⟨c1, r1, c2, r2, h1, h2, hc, hr⟩
        · simp only [if_pos hguard, if_pos hguard2, h1, h2]
          exact ih [] B1 [] B2 used acc1 acc2 false target rfl hB hacc
        · simp only [if_pos hguard, if_pos hguard2, h1, h2]
          have hid : c1.id = c2.id := rankProj_id hc
          rw [hid]
          exact ih r1 B1 r2 B2 (c2.id :: used) (c1 :: acc1) (c2 :: acc2)
            false target hr hB (by simp [hc, hacc])
      | false =>
        rcases findUnused_congr used hB with ⟨h1, h2⟩ |
          ⟨c1, r1, c2, r2, h1, h2, hc, hr⟩
        · simp only [if_pos hguard, if_pos hguard2, h1, h2]
          exact ih A1 [] A2 [] used acc1 acc2 true target hA rfl hacc
        · simp only [if_pos hguard, if_pos hguard2, h1, h2]
          have hid : c1.id = c2.id := rankProj_id hc
          rw [hid]
          exact ih A1 r1 A2 r2 (c2.id :: used) (c1 :: acc1) (c2 :: acc2)
            true target hA hr (by simp [hc, hacc])
    · have hguard2 : ¬ acc2.length < target := by omega
      rw [if_neg hguard, if_neg hguard2]
      simp only [List.map_reverse, hacc]

/-- C9: the dual-rank merge is deterministic and depends only on the
ranking-relevant data — the event ids, the volumes and the markets'
probability fields.  Two input collections that agree on `rankProj`
pointwise (they may differ in every other card field) produce merged
outputs that agree on `rankProj` pointwise, in particular the same id
order; the stable sorts and the id-keyed used-set introduce no other
dependence. -/
theorem C9_merge_deterministic (l1 l2 : List Card)
    (h : l1.map rankProj = l2.map rankProj) :
    (mergeCards l1).map rankProj = (mergeCards l2).map rankProj := by
  have hlen : l1.length = l2.length := by
    have := congrArg List.length h
    simpa using this
  unfold mergeCards
  rw [hlen]
  exact zipLoop_map_congr (l2.length + 1) _ _ _ _ [] [] [] true l2.length
    (sortDescBy_map_congr get_volume_score
      (fun a b hab => get_volume_score_congr hab) h)
    (sortDescBy_map_congr get_weighted_alpha_score
      (fun a b hab => get_weighted_alpha_score_congr hab) h)
    rfl

/-- C9 at a concrete input: two runs over card lists identical up to the
non-ranking payload field merge to the same id/volume/market sequence. -/
theorem C9_merge_deterministic_witness :
    (mergeCards [payloadCardOne]).map rankProj =
      (mergeCards [payloadCardTwo]).map rankProj :=
  C9_merge_deterministic [payloadCardOne] [payloadCardTwo] rfl

end Oracle
